import Mathlib

/-!
Verification of the frames extraction pipeline.

The development shallowly embeds the timeline-construction pipeline of the
repository: the scene-change detector (`detect_shots`), the subtitle-file
parser (`parse_srt`), the OCR change scanner (`scan_for_subtitle_changes`),
the timeline merger (the timestamp dictionary built in `main`), the frame
extractor (`extract_frames`) and the manifest writer, plus the read-side
frames endpoint (`get_frames`).

Timestamps are modelled as exact rationals (the scripts use Python floats;
every property below depends only on equality and on the ordering of the
timestamp values, never on rounding).  External effects are modelled as
explicit inputs: the diagnostic text of the scene filter, the per-sample OCR
results, and a per-frame oracle telling whether the thumbnail file exists
after the media-tool call.
-/

namespace Frames

/-- Event kind: the `type` tag of the timestamp dictionaries
(`'shot'`, `'subtitle'`, `'shot+subtitle'` in the scripts). -/
inductive TsKind where
  | shot
  | subtitle
  | shotAndSubtitle
  deriving DecidableEq, Repr

/-- The literal `type` string stored by the scripts for each kind. -/
def TsKind.str : TsKind → String
  | .shot => "shot"
  | .subtitle => "subtitle"
  | .shotAndSubtitle => "shot+subtitle"

/-- Python's substring test `pat in s`, on character lists. -/
def hasSegment (pat : List Char) : List Char → Bool
  | [] => pat.isEmpty
  | c :: rest => pat.isPrefixOf (c :: rest) || hasSegment pat rest

/-- Python's `str.strip()`: drop whitespace from both ends. -/
def trimChars (cs : List Char) : List Char :=
  ((cs.dropWhile Char.isWhitespace).reverse.dropWhile Char.isWhitespace).reverse

/-- Python's `str.split('\n')` on a character list. -/
def splitLines : List Char → List (List Char)
  | [] => [[]]
  | '\n' :: rest => [] :: splitLines rest
  | c :: rest =>
    match splitLines rest with
    | [] => [[c]]
    | l :: ls => (c :: l) :: ls

/-- Numeric value of a run of decimal digit characters. -/
def digitsToNat (ds : List Char) : ℕ :=
  ds.foldl (fun a c => 10 * a + (c.toNat - '0'.toNat)) 0

/-- Exact value of the decimal literal `intPart.fracPart`
(what `float(...)` computes, without rounding). -/
def decimalValue (intPart fracPart : List Char) : ℚ :=
  Rat.normalize (digitsToNat intPart * 10 ^ fracPart.length + digitsToNat fracPart)
    (10 ^ fracPart.length) (pow_ne_zero _ (by decide))

/-- Attempt to match the regular expression `pts_time:(\d+\.?\d*)`
at the head of `cs` (maximal munch, exactly like the greedy regex). -/
def matchPtsTimeHere (cs : List Char) : Option ℚ :=
  if "pts_time:".data.isPrefixOf cs then
    let after := cs.drop 9
    let ip := after.takeWhile Char.isDigit
    let rest := after.dropWhile Char.isDigit
    if ip.isEmpty then none
    else
      match rest with
      | '.' :: rest2 => some (decimalValue ip (rest2.takeWhile Char.isDigit))
      | _ => some (decimalValue ip [])
  else none

/-- `re.search`: the value of the match at the first position where the
pattern `pts_time:(\d+\.?\d*)` matches, if any. -/
def searchPtsTime : List Char → Option ℚ
  | [] => none
  | c :: rest =>
    match matchPtsTimeHere (c :: rest) with
    | some q => some q
    | none => searchPtsTime rest

/-- The body of the per-line loop of `detect_shots`: a line contributes a
timestamp when it contains `pts_time:` and the regular expression finds a
number after it. -/
def parseShotLine (line : List Char) : Option ℚ :=
  if hasSegment "pts_time:".data line then searchPtsTime line else none

/-- Insert a value into an ascending duplicate-free list, keeping it
ascending and duplicate-free. -/
def insSorted (x : ℚ) : List ℚ → List ℚ
  | [] => [x]
  | y :: t => if x < y then x :: y :: t else if x = y then y :: t else y :: insSorted x t

/-- Python's `sorted(list(set(l)))`: the ascending list of the distinct
values of `l`. -/
def sortedDedup (l : List ℚ) : List ℚ :=
  l.foldr insSorted []

/-- `detect_shots`, as a function of the scene filter's diagnostic text:
seed `0.0`, parse a timestamp from each line that carries one, then
deduplicate and sort (`sorted(list(set(timestamps)))`). -/
def detectShots (diagText : String) : List ℚ :=
  let found := (splitLines diagText.data).filterMap parseShotLine
  sortedDedup ((0 : ℚ) :: found)

/-- The guard of `extract_shots`: `if len(timestamps) == 0` after
`detect_shots` returns. -/
def noShotsDetected (timestamps : List ℚ) : Bool :=
  timestamps.length == 0

theorem mem_insSorted (a x : ℚ) (l : List ℚ) :
    a ∈ insSorted x l ↔ a = x ∨ a ∈ l := by
  induction l with
  | nil => simp [insSorted]
  | cons y t ih =>
    by_cases h1 : x < y
    · simp [insSorted, h1]
    · by_cases h2 : x = y
      · subst h2
        have he : insSorted x (x :: t) = x :: t := by
          unfold insSorted
          rw [if_neg h1, if_pos rfl]
        rw [he]
        simp only [List.mem_cons]
        tauto
      · simp only [insSorted, if_neg h1, if_neg h2, List.mem_cons, ih]
        tauto

theorem pairwise_insSorted (x : ℚ) (l : List ℚ) (h : l.Pairwise (· < ·)) :
    (insSorted x l).Pairwise (· < ·) := by
  induction l with
  | nil => simp [insSorted]
  | cons y t ih =>
    rcases List.pairwise_cons.mp h with ⟨hy, ht⟩
    by_cases h1 : x < y
    · simp only [insSorted, if_pos h1]
      refine List.pairwise_cons.mpr ⟨?_, h⟩
      intro b hb
      rcases List.mem_cons.mp hb with rfl | hb
      · exact h1
      · exact lt_trans h1 (hy b hb)
    · by_cases h2 : x = y
      · subst h2
        simpa [insSorted, h1] using h
      · have hyx : y < x := by
          rcases lt_trichotomy x y with h | h | h
          · exact absurd h h1
          · exact absurd h h2
          · exact h
        simp only [insSorted, if_neg h1, if_neg h2]
        refine List.pairwise_cons.mpr ⟨?_, ih ht⟩
        intro b hb
        rcases (mem_insSorted b x t).mp hb with rfl | hb
        · exact hyx
        · exact hy b hb

theorem pairwise_sortedDedup (l : List ℚ) : (sortedDedup l).Pairwise (· < ·) := by
  induction l with
  | nil => simp [sortedDedup]
  | cons x t ih => exact pairwise_insSorted x _ ih

theorem mem_sortedDedup (a : ℚ) (l : List ℚ) : a ∈ sortedDedup l ↔ a ∈ l := by
  induction l with
  | nil => simp [sortedDedup]
  | cons x t ih =>
    simp only [sortedDedup, List.foldr_cons, mem_insSorted]
    simp only [sortedDedup] at ih
    simp [ih]

/-- C4: for every diagnostic-text input, the detector's output is sorted
strictly ascending (hence duplicate-free) and contains `0.0`, the seeded
first-frame timestamp. -/
theorem detectShots_sorted_nodup_zero (diagText : String) :
    (detectShots diagText).Sorted (· < ·)
    ∧ (detectShots diagText).Nodup
    ∧ (0 : ℚ) ∈ detectShots diagText := by
  have hp : (detectShots diagText).Pairwise (· < ·) := pairwise_sortedDedup _
  refine ⟨hp, hp.imp ne_of_lt, ?_⟩
  simpa [detectShots] using (mem_sortedDedup 0 _).mpr (List.mem_cons_self _ _)

/-- C3: the zero-shots guard is dead code.  `detect_shots` always seeds
`0.0`, so its result is never empty and `len(timestamps) == 0` is never
true: a run that finds zero real shots beyond the seed does not terminate;
on empty diagnostic output the detector returns exactly `[0.0]` and the
pipeline continues with that single frame. -/
theorem noShotsDetected_never_fires (diagText : String) :
    noShotsDetected (detectShots diagText) = false
    ∧ detectShots "" = [0] := by
  constructor
  · have h0 : (0 : ℚ) ∈ detectShots diagText :=
      (detectShots_sorted_nodup_zero diagText).2.2
    rcases List.exists_cons_of_ne_nil (List.ne_nil_of_mem h0) with ⟨a, t, ht⟩
    simp [noShotsDetected, ht]
  · decide

/-- One value of the `all_timestamps` dictionary of `main`:
`{'timestamp': ts, 'type': ..., 'subtitle': ...}`. -/
structure TsData where
  timestamp : ℚ
  type : TsKind
  subtitle : Option String
  deriving DecidableEq, Repr

/-- The `all_timestamps` dictionary, as an insertion-ordered association
list (Python dictionaries preserve insertion order and keep the original
slot on overwrite). -/
abbrev TimelineMap := List (ℚ × TsData)

/-- Dictionary read `m[k]` (first entry with the key, if any). -/
def dlookup (m : TimelineMap) (k : ℚ) : Option TsData :=
  match m with
  | [] => none
  | p :: rest => if p.1 = k then some p.2 else dlookup rest k

/-- Dictionary write `m[k] = v`: overwrite in place when present, append
otherwise. -/
def dinsert (m : TimelineMap) (k : ℚ) (v : TsData) : TimelineMap :=
  match m with
  | [] => [(k, v)]
  | p :: rest => if p.1 = k then (k, v) :: rest else p :: dinsert rest k v

/-- In-place mutation of the value stored at `k`. -/
def dmodify (m : TimelineMap) (k : ℚ) (f : TsData → TsData) : TimelineMap :=
  m.map fun p => if p.1 = k then (p.1, f p.2) else p

/-- Body of the shot loop of `main`:
`all_timestamps[ts] = {'timestamp': ts, 'type': 'shot', 'subtitle': None}`. -/
def addShot (m : TimelineMap) (ts : ℚ) : TimelineMap :=
  dinsert m ts ⟨ts, .shot, none⟩

/-- Body of the subtitle loop of `main`: when the timestamp is already a
key, attach the text and upgrade the kind to `shot+subtitle`; otherwise
insert a fresh subtitle entry. -/
def addSubtitleEvent (m : TimelineMap) (ts : ℚ) (text : String) : TimelineMap :=
  if (dlookup m ts).isSome then
    dmodify m ts fun d => { d with subtitle := some text, type := .shotAndSubtitle }
  else
    m ++ [(ts, ⟨ts, .subtitle, some text⟩)]

/-- The subtitle loop of `main`, folded over the subtitle events. -/
def foldSubs (m : TimelineMap) (subs : List (ℚ × String)) : TimelineMap :=
  subs.foldl (fun m p => addSubtitleEvent m p.1 p.2) m

/-- The timestamp dictionary built by `main` from the two event streams. -/
def buildTimestampMap (shots : List ℚ) (subs : List (ℚ × String)) : TimelineMap :=
  foldSubs (shots.foldl addShot []) subs

/-- Ordering of timeline events by timestamp (the `sorted` key of `main`). -/
def tsLE (a b : TsData) : Prop := a.timestamp ≤ b.timestamp

instance : DecidableRel tsLE := fun a b => inferInstanceAs (Decidable (a.timestamp ≤ b.timestamp))

instance : IsTotal TsData tsLE := ⟨fun a b => le_total a.timestamp b.timestamp⟩

instance : IsTrans TsData tsLE := ⟨fun _ _ _ => le_trans⟩

/-- The merged timeline: `sorted(all_timestamps.values(), key=timestamp)`. -/
def mergeTimelines (shots : List ℚ) (subs : List (ℚ × String)) : List TsData :=
  List.insertionSort tsLE ((buildTimestampMap shots subs).map Prod.snd)

/-- The keys of the dictionary, in insertion order. -/
def dkeys (m : TimelineMap) : List ℚ := m.map Prod.fst

theorem dkeys_dinsert (m : TimelineMap) (k : ℚ) (v : TsData) (a : ℚ) :
    a ∈ dkeys (dinsert m k v) ↔ a = k ∨ a ∈ dkeys m := by
  induction m with
  | nil => simp [dkeys, dinsert]
  | cons p rest ih =>
    by_cases h : p.1 = k
    · subst h
      have he : dinsert (p :: rest) p.1 v = (p.1, v) :: rest := by
        unfold dinsert
        rw [if_pos rfl]
      rw [he]
      simp only [dkeys, List.map_cons, List.mem_cons]
      tauto
    · simp only [dkeys, dinsert, if_neg h, List.map_cons, List.mem_cons] at *
      tauto

theorem dkeys_nodup_dinsert (m : TimelineMap) (k : ℚ) (v : TsData)
    (h : (dkeys m).Nodup) : (dkeys (dinsert m k v)).Nodup := by
  induction m with
  | nil => simp [dkeys, dinsert]
  | cons p rest ih =>
    simp only [dkeys, List.map_cons, List.nodup_cons] at h
    by_cases hk : p.1 = k
    · subst hk
      simpa [dkeys, dinsert, List.nodup_cons] using h
    · simp only [dkeys, dinsert, if_neg hk, List.map_cons, List.nodup_cons]
      refine ⟨?_, ih h.2⟩
      intro hm
      rcases (dkeys_dinsert rest k v p.1).mp hm with rfl | hm
      · exact hk rfl
      · exact h.1 hm

theorem dlookup_isSome_iff_mem (m : TimelineMap) (k : ℚ) :
    (dlookup m k).isSome = true ↔ k ∈ dkeys m := by
  induction m with
  | nil => simp [dkeys, dlookup]
  | cons p rest ih =>
    by_cases h : p.1 = k
    · subst h
      simp [dkeys, dlookup]
    · simp only [dkeys, dlookup, if_neg h, List.map_cons, List.mem_cons, ih]
      constructor
      · tauto
      · rintro (rfl | hm)
        · exact absurd rfl h
        · exact hm

theorem dkeys_dmodify (m : TimelineMap) (k : ℚ) (f : TsData → TsData) :
    dkeys (dmodify m k f) = dkeys m := by
  induction m with
  | nil => rfl
  | cons p rest ih =>
    by_cases h : p.1 = k
    · simp only [dkeys, dmodify, List.map_cons, if_pos h] at *
      simp [ih, h]
    · simp only [dkeys, dmodify, List.map_cons, if_neg h] at *
      simp [ih]

theorem dkeys_addSubtitleEvent (m : TimelineMap) (ts : ℚ) (text : String) (a : ℚ) :
    a ∈ dkeys (addSubtitleEvent m ts text) ↔ a = ts ∨ a ∈ dkeys m := by
  unfold addSubtitleEvent
  by_cases h : (dlookup m ts).isSome = true
  · rw [if_pos h, dkeys_dmodify]
    have hts : ts ∈ dkeys m := (dlookup_isSome_iff_mem m ts).mp h
    constructor
    · tauto
    · rintro (rfl | hm)
      · exact hts
      · exact hm
  · rw [if_neg h]
    simp [dkeys]
    tauto

theorem dkeys_nodup_addSubtitleEvent (m : TimelineMap) (ts : ℚ) (text : String)
    (h : (dkeys m).Nodup) : (dkeys (addSubtitleEvent m ts text)).Nodup := by
  unfold addSubtitleEvent
  by_cases hs : (dlookup m ts).isSome = true
  · rwa [if_pos hs, dkeys_dmodify]
  · rw [if_neg hs]
    have hts : ts ∉ dkeys m := fun hm =>
      hs ((dlookup_isSome_iff_mem m ts).mpr hm)
    simp only [dkeys, List.map_append, List.map_cons, List.map_nil]
    rw [List.nodup_append]
    refine ⟨h, by simp, ?_⟩
    intro a ha hb
    simp only [List.mem_cons, List.not_mem_nil, or_false] at hb
    subst hb
    exact hts ha

theorem dlookup_dinsert (m : TimelineMap) (k : ℚ) (v : TsData) (a : ℚ) :
    dlookup (dinsert m k v) a = if a = k then some v else dlookup m a := by
  induction m with
  | nil =>
    by_cases h : a = k
    · simp [dinsert, dlookup, h]
    · simp [dinsert, dlookup, h, Ne.symm h]
  | cons p rest ih =>
    by_cases hpk : p.1 = k
    · by_cases hak : a = k
      · simp [dinsert, dlookup, hpk, hak]
      · have hpa : ¬p.1 = a := by
          rw [hpk]
          exact Ne.symm hak
        simp [dinsert, dlookup, hpk, hak, Ne.symm hak, hpa]
    · by_cases hpa : p.1 = a
      · have hak : ¬a = k := by
          rw [← hpa]
          exact fun h => hpk h
        simp [dinsert, dlookup, hpk, hpa, hak]
      · simp [dinsert, dlookup, hpk, hpa, ih]

theorem dlookup_append (m l : TimelineMap) (a : ℚ) :
    dlookup (m ++ l) a =
      match dlookup m a with
      | some v => some v
      | none => dlookup l a := by
  induction m with
  | nil => simp [dlookup]
  | cons p rest ih =>
    by_cases hpa : p.1 = a
    · simp [dlookup, hpa]
    · simp [dlookup, hpa, ih]

theorem dlookup_dmodify (m : TimelineMap) (k : ℚ) (f : TsData → TsData) (a : ℚ) :
    dlookup (dmodify m k f) a =
      if a = k then (dlookup m a).map f else dlookup m a := by
  induction m with
  | nil => simp [dmodify, dlookup]
  | cons p rest ih =>
    have hcons : dmodify (p :: rest) k f =
        (if p.1 = k then (p.1, f p.2) else p) :: dmodify rest k f := rfl
    rw [hcons]
    by_cases hpk : p.1 = k
    · rw [if_pos hpk]
      by_cases hpa : p.1 = a
      · have hak : a = k := by rw [← hpa, hpk]
        simp [dlookup, hpa, hak]
      · have hak : ¬a = k := by
          rw [← hpk]
          exact fun h => hpa h.symm
        simp [dlookup, hpa, hak, ih]
    · rw [if_neg hpk]
      by_cases hpa : p.1 = a
      · have hak : ¬a = k := by
          rw [← hpa]
          exact hpk
        simp [dlookup, hpa, hak]
      · simp [dlookup, hpa, ih]

theorem dlookup_addShot (m : TimelineMap) (ts a : ℚ) :
    dlookup (addShot m ts) a = if a = ts then some ⟨ts, .shot, none⟩ else dlookup m a :=
  dlookup_dinsert m ts _ a

theorem dlookup_foldl_addShot (shots : List ℚ) :
    ∀ (m : TimelineMap) (a : ℚ),
      dlookup (shots.foldl addShot m) a =
        if a ∈ shots then some ⟨a, .shot, none⟩ else dlookup m a := by
  induction shots with
  | nil => simp
  | cons s rest ih =>
    intro m a
    rw [List.foldl_cons, ih]
    by_cases har : a ∈ rest
    · simp [har, List.mem_cons]
    · rw [if_neg har, dlookup_addShot]
      by_cases has : a = s
      · subst has
        simp
      · simp [has, har]

theorem dlookup_addSubtitleEvent_ne (m : TimelineMap) (ts : ℚ) (text : String)
    (a : ℚ) (h : a ≠ ts) :
    dlookup (addSubtitleEvent m ts text) a = dlookup m a := by
  unfold addSubtitleEvent
  by_cases hs : (dlookup m ts).isSome = true
  · rw [if_pos hs, dlookup_dmodify, if_neg h]
  · rw [if_neg hs, dlookup_append]
    have hsingle : dlookup [(ts, ⟨ts, .subtitle, some text⟩)] a = none := by
      simp [dlookup, Ne.symm h]
    rcases hd : dlookup m a with - | d
    · simp [hsingle]
    · simp

theorem dlookup_addSubtitleEvent_present (m : TimelineMap) (ts : ℚ) (text : String)
    (d : TsData) (h : dlookup m ts = some d) :
    dlookup (addSubtitleEvent m ts text) ts =
      some { d with subtitle := some text, type := .shotAndSubtitle } := by
  unfold addSubtitleEvent
  rw [if_pos (by simp [h]), dlookup_dmodify, if_pos rfl, h]
  rfl

theorem dlookup_addSubtitleEvent_absent (m : TimelineMap) (ts : ℚ) (text : String)
    (h : dlookup m ts = none) :
    dlookup (addSubtitleEvent m ts text) ts = some ⟨ts, .subtitle, some text⟩ := by
  unfold addSubtitleEvent
  rw [if_neg (by simp [h]), dlookup_append, h]
  simp [dlookup]

theorem dlookup_foldSubs_of_no_key (subs : List (ℚ × String)) :
    ∀ (m : TimelineMap) (t : ℚ), (∀ p ∈ subs, p.1 ≠ t) →
      dlookup (foldSubs m subs) t = dlookup m t := by
  induction subs with
  | nil => simp [foldSubs]
  | cons q rest ih =>
    intro m t h
    have hq : q.1 ≠ t := h q (List.mem_cons_self _ _)
    have hrest : ∀ p ∈ rest, p.1 ≠ t := fun p hp => h p (List.mem_cons_of_mem _ hp)
    show dlookup (foldSubs (addSubtitleEvent m q.1 q.2) rest) t = dlookup m t
    rw [ih _ t hrest, dlookup_addSubtitleEvent_ne _ _ _ _ (fun he => hq he.symm)]

theorem dlookup_foldSubs_single (subs : List (ℚ × String)) :
    ∀ (m : TimelineMap) (t : ℚ) (s : String) (d : TsData),
      dlookup m t = some d →
      subs.filter (fun p => decide (p.1 = t)) = [(t, s)] →
      dlookup (foldSubs m subs) t =
        some { d with subtitle := some s, type := .shotAndSubtitle } := by
  induction subs with
  | nil => simp
  | cons q rest ih =>
    intro m t s d hd hf
    by_cases hq : q.1 = t
    · rw [List.filter_cons_of_pos (by simpa using hq)] at hf
      have hqts : q = (t, s) := by
        have := List.head_eq_of_cons_eq hf
        simpa using this
      have hrest : rest.filter (fun p => decide (p.1 = t)) = [] :=
        List.tail_eq_of_cons_eq hf
      have hnone : ∀ p ∈ rest, p.1 ≠ t := by
        intro p hp hpt
        have : p ∈ rest.filter (fun p => decide (p.1 = t)) :=
          List.mem_filter.mpr ⟨hp, by simpa using hpt⟩
        rw [hrest] at this
        simp at this
      show dlookup (foldSubs (addSubtitleEvent m q.1 q.2) rest) t = _
      rw [dlookup_foldSubs_of_no_key rest _ t hnone, hqts]
      exact dlookup_addSubtitleEvent_present m t s d hd
    · rw [List.filter_cons_of_neg (by simpa using hq)] at hf
      show dlookup (foldSubs (addSubtitleEvent m q.1 q.2) rest) t = _
      refine ih _ t s d ?_ hf
      rw [dlookup_addSubtitleEvent_ne _ _ _ _ (fun he => hq he.symm)]
      exact hd

theorem dlookup_foldSubs_pair (subs : List (ℚ × String)) :
    ∀ (m : TimelineMap) (t : ℚ) (a b : String),
      dlookup m t = none →
      subs.filter (fun p => decide (p.1 = t)) = [(t, a), (t, b)] →
      dlookup (foldSubs m subs) t = some ⟨t, .shotAndSubtitle, some b⟩ := by
  induction subs with
  | nil => simp
  | cons q rest ih =>
    intro m t a b hnone hf
    by_cases hq : q.1 = t
    · rw [List.filter_cons_of_pos (by simpa using hq)] at hf
      have hqta : q = (t, a) := by
        have := List.head_eq_of_cons_eq hf
        simpa using this
      have hrest : rest.filter (fun p => decide (p.1 = t)) = [(t, b)] :=
        List.tail_eq_of_cons_eq hf
      show dlookup (foldSubs (addSubtitleEvent m q.1 q.2) rest) t = _
      have habs : dlookup (addSubtitleEvent m q.1 q.2) t = some ⟨t, .subtitle, some a⟩ := by
        rw [hqta]
        exact dlookup_addSubtitleEvent_absent m t a hnone
      exact dlookup_foldSubs_single rest _ t b _ habs hrest
    · rw [List.filter_cons_of_neg (by simpa using hq)] at hf
      show dlookup (foldSubs (addSubtitleEvent m q.1 q.2) rest) t = _
      refine ih _ t a b ?_ hf
      rw [dlookup_addSubtitleEvent_ne _ _ _ _ (fun he => hq he.symm)]
      exact hnone

theorem mem_dkeys_foldl_addShot (shots : List ℚ) :
    ∀ (m : TimelineMap) (a : ℚ),
      a ∈ dkeys (shots.foldl addShot m) ↔ a ∈ shots ∨ a ∈ dkeys m := by
  induction shots with
  | nil => simp
  | cons s rest ih =>
    intro m a
    rw [List.foldl_cons, ih]
    unfold addShot
    rw [dkeys_dinsert]
    simp only [List.mem_cons]
    tauto

theorem dkeys_nodup_foldl_addShot (shots : List ℚ) :
    ∀ m : TimelineMap, (dkeys m).Nodup → (dkeys (shots.foldl addShot m)).Nodup := by
  induction shots with
  | nil => exact fun m h => h
  | cons s rest ih =>
    intro m h
    exact ih _ (dkeys_nodup_dinsert m s _ h)

theorem mem_dkeys_foldSubs (subs : List (ℚ × String)) :
    ∀ (m : TimelineMap) (a : ℚ),
      a ∈ dkeys (foldSubs m subs) ↔ a ∈ subs.map Prod.fst ∨ a ∈ dkeys m := by
  induction subs with
  | nil => simp [foldSubs]
  | cons q rest ih =>
    intro m a
    show a ∈ dkeys (foldSubs (addSubtitleEvent m q.1 q.2) rest) ↔ _
    rw [ih, dkeys_addSubtitleEvent]
    simp only [List.map_cons, List.mem_cons]
    tauto

theorem dkeys_nodup_foldSubs (subs : List (ℚ × String)) :
    ∀ m : TimelineMap, (dkeys m).Nodup → (dkeys (foldSubs m subs)).Nodup := by
  induction subs with
  | nil => exact fun m h => h
  | cons q rest ih =>
    intro m h
    exact ih _ (dkeys_nodup_addSubtitleEvent m q.1 q.2 h)

theorem dkeys_nodup_build (shots : List ℚ) (subs : List (ℚ × String)) :
    (dkeys (buildTimestampMap shots subs)).Nodup :=
  dkeys_nodup_foldSubs subs _ (dkeys_nodup_foldl_addShot shots [] (by simp [dkeys]))

theorem mem_dkeys_build (shots : List ℚ) (subs : List (ℚ × String)) (a : ℚ) :
    a ∈ dkeys (buildTimestampMap shots subs) ↔ a ∈ shots ∨ a ∈ subs.map Prod.fst := by
  unfold buildTimestampMap
  rw [mem_dkeys_foldSubs, mem_dkeys_foldl_addShot]
  simp [dkeys]
  tauto

theorem dinsert_cons (p : ℚ × TsData) (rest : TimelineMap) (k : ℚ) (v : TsData) :
    dinsert (p :: rest) k v =
      if p.1 = k then (k, v) :: rest else p :: dinsert rest k v := rfl

theorem mem_dinsert (m : TimelineMap) (k : ℚ) (v : TsData) (q : ℚ × TsData)
    (h : q ∈ dinsert m k v) : q ∈ m ∨ q = (k, v) := by
  induction m with
  | nil =>
    simp [dinsert] at h
    tauto
  | cons p rest ih =>
    by_cases hpk : p.1 = k
    · rw [dinsert_cons, if_pos hpk] at h
      rcases List.mem_cons.mp h with rfl | h
      · tauto
      · exact Or.inl (List.mem_cons_of_mem _ h)
    · rw [dinsert_cons, if_neg hpk] at h
      rcases List.mem_cons.mp h with rfl | h
      · exact Or.inl (List.mem_cons_self _ _)
      · rcases ih h with h | h
        · exact Or.inl (List.mem_cons_of_mem _ h)
        · tauto

theorem mem_dmodify (m : TimelineMap) (k : ℚ) (f : TsData → TsData) (q : ℚ × TsData)
    (h : q ∈ dmodify m k f) : q ∈ m ∨ ∃ p ∈ m, q = (p.1, f p.2) := by
  unfold dmodify at h
  rcases List.mem_map.mp h with ⟨p, hp, he⟩
  by_cases hpk : p.1 = k
  · rw [if_pos hpk] at he
    exact Or.inr ⟨p, hp, he.symm⟩
  · rw [if_neg hpk] at he
    exact Or.inl (he ▸ hp)

theorem mem_addSubtitleEvent (m : TimelineMap) (ts : ℚ) (text : String)
    (q : ℚ × TsData) (h : q ∈ addSubtitleEvent m ts text) :
    q ∈ m ∨ (∃ p ∈ m, q = (p.1, { p.2 with subtitle := some text, type := .shotAndSubtitle }))
      ∨ q = (ts, ⟨ts, .subtitle, some text⟩) := by
  unfold addSubtitleEvent at h
  by_cases hs : (dlookup m ts).isSome = true
  · rw [if_pos hs] at h
    rcases mem_dmodify m ts _ q h with h | ⟨p, hp, he⟩
    · exact Or.inl h
    · exact Or.inr (Or.inl ⟨p, hp, he⟩)
  · rw [if_neg hs] at h
    rcases List.mem_append.mp h with h | h
    · exact Or.inl h
    · simp at h
      exact Or.inr (Or.inr (by simp [h]))

theorem timestamp_eq_key_foldl_addShot (shots : List ℚ) :
    ∀ m : TimelineMap, (∀ p ∈ m, (p.2).timestamp = p.1) →
      ∀ p ∈ shots.foldl addShot m, (p.2).timestamp = p.1 := by
  induction shots with
  | nil => exact fun m h => h
  | cons s rest ih =>
    intro m h
    refine ih _ ?_
    intro p hp
    rcases mem_dinsert m s _ p hp with hp | rfl
    · exact h p hp
    · rfl

theorem timestamp_eq_key_foldSubs (subs : List (ℚ × String)) :
    ∀ m : TimelineMap, (∀ p ∈ m, (p.2).timestamp = p.1) →
      ∀ p ∈ foldSubs m subs, (p.2).timestamp = p.1 := by
  induction subs with
  | nil => exact fun m h => h
  | cons q rest ih =>
    intro m h
    refine ih _ ?_
    intro p hp
    rcases mem_addSubtitleEvent m q.1 q.2 p hp with hp | ⟨r, hr, rfl⟩ | rfl
    · exact h p hp
    · exact h r hr
    · rfl

theorem timestamp_eq_key_build (shots : List ℚ) (subs : List (ℚ × String)) :
    ∀ p ∈ buildTimestampMap shots subs, (p.2).timestamp = p.1 :=
  timestamp_eq_key_foldSubs subs _
    (timestamp_eq_key_foldl_addShot shots [] (by simp))

theorem countP_dkey_eq_one (m : TimelineMap) (t : ℚ)
    (hn : (dkeys m).Nodup) (hm : t ∈ dkeys m) :
    m.countP (fun p => decide (p.1 = t)) = 1 := by
  induction m with
  | nil => simp [dkeys] at hm
  | cons p rest ih =>
    simp only [dkeys, List.map_cons, List.nodup_cons] at hn
    by_cases hpt : p.1 = t
    · rw [List.countP_cons_of_pos _ _ (by simpa using hpt)]
      have hzero : rest.countP (fun p => decide (p.1 = t)) = 0 := by
        rw [List.countP_eq_zero]
        intro q hq
        simp only [decide_eq_true_eq]
        intro hqt
        exact hn.1 (by
          rw [hpt, ← hqt]
          exact List.mem_map_of_mem Prod.fst hq)
      rw [hzero]
    · rw [List.countP_cons_of_neg _ _ (by simpa using hpt)]
      refine ih hn.2 ?_
      have hm' : t ∈ p.1 :: dkeys rest := hm
      rcases List.mem_cons.mp hm' with h | h
      · exact absurd h.symm hpt
      · exact h

theorem dlookup_of_mem (m : TimelineMap) (hn : (dkeys m).Nodup) :
    ∀ p ∈ m, dlookup m p.1 = some p.2 := by
  induction m with
  | nil => simp
  | cons q rest ih =>
    simp only [dkeys, List.map_cons, List.nodup_cons] at hn
    intro p hp
    rcases List.mem_cons.mp hp with rfl | hp
    · simp [dlookup]
    · have hne : ¬q.1 = p.1 := by
        intro he
        exact hn.1 (he ▸ List.mem_map_of_mem Prod.fst hp)
      simp only [dlookup, if_neg hne]
      exact ih hn.2 p hp

theorem countP_map_snd (m : TimelineMap) (p : TsData → Bool) :
    (m.map Prod.snd).countP p = m.countP fun q => p q.2 := by
  induction m with
  | nil => rfl
  | cons q rest ih =>
    show List.countP p (q.2 :: rest.map Prod.snd)
        = List.countP (fun r : ℚ × TsData => p r.2) (q :: rest)
    rw [List.countP_cons, List.countP_cons, ih]

theorem mergeTimelines_countP_key (shots : List ℚ) (subs : List (ℚ × String)) (t : ℚ) :
    (mergeTimelines shots subs).countP (fun e => decide (e.timestamp = t)) =
      (buildTimestampMap shots subs).countP (fun p => decide (p.1 = t)) := by
  unfold mergeTimelines
  rw [(List.perm_insertionSort tsLE _).countP_eq, countP_map_snd]
  refine List.countP_congr ?_
  intro p hp
  have := timestamp_eq_key_build shots subs p hp
  simp [this]

theorem mem_mergeTimelines (shots : List ℚ) (subs : List (ℚ × String)) (e : TsData) :
    e ∈ mergeTimelines shots subs ↔ e ∈ (buildTimestampMap shots subs).map Prod.snd :=
  (List.perm_insertionSort tsLE _).mem_iff

theorem mergeTimelines_length (shots : List ℚ) (subs : List (ℚ × String)) :
    (mergeTimelines shots subs).length = (shots ++ subs.map Prod.fst).toFinset.card := by
  unfold mergeTimelines
  rw [List.length_insertionSort, List.length_map]
  have hlen : (buildTimestampMap shots subs).length = (dkeys (buildTimestampMap shots subs)).length := by
    simp [dkeys]
  rw [hlen, ← List.toFinset_card_of_nodup (dkeys_nodup_build shots subs)]
  congr 1
  ext a
  rw [List.mem_toFinset, List.mem_toFinset, mem_dkeys_build, List.mem_append]

theorem dlookup_build_shot_and_sub (shots : List ℚ) (subs : List (ℚ × String))
    (t : ℚ) (s : String) (hshot : t ∈ shots)
    (hsub : subs.filter (fun p => decide (p.1 = t)) = [(t, s)]) :
    dlookup (buildTimestampMap shots subs) t = some ⟨t, .shotAndSubtitle, some s⟩ := by
  unfold buildTimestampMap
  have hbase : dlookup (shots.foldl addShot []) t = some ⟨t, .shot, none⟩ := by
    rw [dlookup_foldl_addShot, if_pos hshot]
  exact dlookup_foldSubs_single subs _ t s _ hbase hsub

/-- C1: for all merge inputs, the merged timeline has exactly one event per
distinct timestamp value across both streams, and a shot timestamp that also
carries a subtitle event collapses into a single `shot+subtitle` event with
the subtitle's text, not two events. -/
theorem merged_timeline_length_and_collapse :
    (∀ (shots : List ℚ) (subs : List (ℚ × String)),
      (mergeTimelines shots subs).length = (shots ++ subs.map Prod.fst).toFinset.card)
    ∧ ∀ (shots : List ℚ) (subs : List (ℚ × String)) (t : ℚ) (s : String),
        t ∈ shots → subs.filter (fun p => decide (p.1 = t)) = [(t, s)] →
        (mergeTimelines shots subs).countP (fun e => decide (e.timestamp = t)) = 1
        ∧ ∀ e ∈ mergeTimelines shots subs, e.timestamp = t →
            e.type = .shotAndSubtitle ∧ e.subtitle = some s := by
  refine ⟨mergeTimelines_length, ?_⟩
  intro shots subs t s hshot hsub
  have hlook := dlookup_build_shot_and_sub shots subs t s hshot hsub
  have htk : t ∈ dkeys (buildTimestampMap shots subs) :=
    (dlookup_isSome_iff_mem _ t).mp (by simp [hlook])
  refine ⟨?_, ?_⟩
  · rw [mergeTimelines_countP_key]
    exact countP_dkey_eq_one _ t (dkeys_nodup_build shots subs) htk
  · intro e he het
    rcases List.mem_map.mp ((mem_mergeTimelines shots subs e).mp he) with ⟨p, hp, rfl⟩
    have hkey : p.1 = t := by
      rw [← timestamp_eq_key_build shots subs p hp, het]
    have := dlookup_of_mem _ (dkeys_nodup_build shots subs) p hp
    rw [hkey, hlook] at this
    have hv : p.2 = ⟨t, .shotAndSubtitle, some s⟩ := by
      injection this with h
      exact h.symm
    rw [hv]
    exact ⟨rfl, rfl⟩

/-- Closed instance of C1's theorem at a concrete merge input: shots at 0
and 2, one subtitle at 2. -/
theorem merged_timeline_length_and_collapse_witness :
    ((2 : ℚ) ∈ [(0 : ℚ), 2]
      ∧ [((2 : ℚ), "hi")].filter (fun p => decide (p.1 = (2 : ℚ))) = [((2 : ℚ), "hi")])
    ∧ ((mergeTimelines [0, 2] [(2, "hi")]).length
          = ([(0 : ℚ), 2] ++ [((2 : ℚ), "hi")].map Prod.fst).toFinset.card
      ∧ (mergeTimelines [0, 2] [(2, "hi")]).countP (fun e => decide (e.timestamp = 2)) = 1
      ∧ ∀ e ∈ mergeTimelines [0, 2] [(2, "hi")], e.timestamp = 2 →
          e.type = .shotAndSubtitle ∧ e.subtitle = some "hi") :=
  ⟨⟨by decide, by decide⟩,
    merged_timeline_length_and_collapse.1 [0, 2] [(2, "hi")],
    merged_timeline_length_and_collapse.2 [0, 2] [(2, "hi")] 2 "hi" (by decide) (by decide)⟩

/-- C10: two subtitle events at the same exact timestamp, with no shot
there, still produce a single event whose kind is `shot+subtitle` and whose
text is the later-processed event's text: the upgrade step only checks that
the key exists, not that the existing entry is a shot. -/
theorem merge_two_subtitles_same_timestamp (shots : List ℚ) (subs : List (ℚ × String))
    (t : ℚ) (a b : String) (hns : t ∉ shots) (_hab : a ≠ b)
    (hsub : subs.filter (fun p => decide (p.1 = t)) = [(t, a), (t, b)]) :
    (mergeTimelines shots subs).countP (fun e => decide (e.timestamp = t)) = 1
    ∧ ∀ e ∈ mergeTimelines shots subs, e.timestamp = t →
        e.type = .shotAndSubtitle ∧ e.subtitle = some b := by
  have hbase : dlookup (shots.foldl addShot []) t = none := by
    rw [dlookup_foldl_addShot, if_neg hns]
    rfl
  have hlook : dlookup (buildTimestampMap shots subs) t = some ⟨t, .shotAndSubtitle, some b⟩ :=
    dlookup_foldSubs_pair subs _ t a b hbase hsub
  have htk : t ∈ dkeys (buildTimestampMap shots subs) :=
    (dlookup_isSome_iff_mem _ t).mp (by simp [hlook])
  constructor
  · rw [mergeTimelines_countP_key]
    exact countP_dkey_eq_one _ t (dkeys_nodup_build shots subs) htk
  · intro e he het
    rcases List.mem_map.mp ((mem_mergeTimelines shots subs e).mp he) with ⟨p, hp, rfl⟩
    have hkey : p.1 = t := by
      rw [← timestamp_eq_key_build shots subs p hp, het]
    have := dlookup_of_mem _ (dkeys_nodup_build shots subs) p hp
    rw [hkey, hlook] at this
    have hv : p.2 = ⟨t, .shotAndSubtitle, some b⟩ := by
      injection this with h
      exact h.symm
    rw [hv]
    exact ⟨rfl, rfl⟩

/-- Closed instance of C10's theorem: no shots at 1, two subtitle events at
timestamp 1 with texts "x" then "y". -/
theorem merge_two_subtitles_same_timestamp_witness :
    ((1 : ℚ) ∉ [(0 : ℚ)] ∧ "x" ≠ "y"
      ∧ [((1 : ℚ), "x"), ((1 : ℚ), "y")].filter (fun p => decide (p.1 = (1 : ℚ)))
          = [((1 : ℚ), "x"), ((1 : ℚ), "y")])
    ∧ ((mergeTimelines [0] [(1, "x"), (1, "y")]).countP
          (fun e => decide (e.timestamp = 1)) = 1
      ∧ ∀ e ∈ mergeTimelines [0] [(1, "x"), (1, "y")], e.timestamp = 1 →
          e.type = .shotAndSubtitle ∧ e.subtitle = some "y") :=
  ⟨⟨by decide, by decide, by decide⟩,
    merge_two_subtitles_same_timestamp [0] [(1, "x"), (1, "y")] 1 "x" "y"
      (by decide) (by decide) (by decide)⟩

/-- Zero-left-padding of a number, Python's `f'{n:0Nd}'`. -/
def padZeros (width n : ℕ) : String :=
  let s := toString n
  String.mk (List.replicate (width - s.length) '0') ++ s

/-- The frame file name `frame_{n:05d}.jpg`. -/
def frameFilename (n : ℕ) : String :=
  "frame_" ++ padZeros 5 n ++ ".jpg"

/-- Python's float `%` for a positive modulus: `a - b * floor(a / b)`. -/
def qmod (a b : ℚ) : ℚ := a - b * ⌊a / b⌋

/-- The `HH:MM:SS.mmm` timecode rendered by `extract_frames` (each
component truncated with `int(...)`; timestamps are nonnegative). -/
def timecodeOf (ts : ℚ) : String :=
  let hours := (⌊ts / 3600⌋).toNat
  let minutes := (⌊qmod ts 3600 / 60⌋).toNat
  let seconds := (⌊qmod ts 60⌋).toNat
  let ms := (⌊qmod ts 1 * 1000⌋).toNat
  padZeros 2 hours ++ ":" ++ padZeros 2 minutes ++ ":" ++ padZeros 2 seconds
    ++ "." ++ padZeros 3 ms

/-- One frame record of the manifest (`subtitle = none` models the absence
of the optional `subtitle` key). -/
structure Frame where
  number : ℕ
  thumbnail : String
  full : String
  timecode : String
  timestamp : ℚ
  type : TsKind
  subtitle : Option String
  deriving DecidableEq, Repr

/-- The frame record built once the thumbnail file exists; the `subtitle`
key is added only when `data.get('subtitle')` is truthy (a non-empty
string). -/
def mkFrame (outName : String) (frameNum : ℕ) (d : TsData) : Frame :=
  { number := frameNum
    thumbnail := "/static/frames/" ++ outName ++ "/thumbs/" ++ frameFilename frameNum
    full := "/static/frames/" ++ outName ++ "/full/" ++ frameFilename frameNum
    timecode := timecodeOf d.timestamp
    timestamp := d.timestamp
    type := d.type
    subtitle :=
      match d.subtitle with
      | some t => if t = "" then none else some t
      | none => none }

/-- The loop of `extract_frames` from position `i`: the media tool is
invoked for every event, but a record is appended only when the thumbnail
file exists afterwards (`thumbOk i` models that check); the sequence number
is always `i + 1`, the position in the input timeline. -/
def extractFramesFrom (outName : String) (thumbOk : ℕ → Bool) :
    List TsData → ℕ → List Frame
  | [], _ => []
  | d :: rest, i =>
    (if thumbOk i then [mkFrame outName (i + 1) d] else [])
      ++ extractFramesFrom outName thumbOk rest (i + 1)

/-- `extract_frames`: walk the merged timeline in order. -/
def extractFrames (outName : String) (events : List TsData) (thumbOk : ℕ → Bool) :
    List Frame :=
  extractFramesFrom outName thumbOk events 0

/-- `shot_count` of `main`: `sum(1 for f in frames if 'shot' in f['type'])`. -/
def shotFrameCount (frames : List Frame) : ℕ :=
  frames.countP fun f => hasSegment "shot".data (TsKind.str f.type).data

/-- `sub_count` of `main`: `sum(1 for f in frames if 'subtitle' in f['type'])`. -/
def subtitleFrameCount (frames : List Frame) : ℕ :=
  frames.countP fun f => hasSegment "subtitle".data (TsKind.str f.type).data

/-- The manifest document written by `main`. -/
structure Manifest where
  movie_name : String
  total_frames : ℕ
  shot_frames : ℕ
  subtitle_frames : ℕ
  extraction_type : String
  frames : List Frame
  deriving DecidableEq, Repr

/-- Manifest assembly in `main` of the shots-and-subtitles script. -/
def mkManifest (movieName : String) (frames : List Frame) : Manifest :=
  { movie_name := movieName
    total_frames := frames.length
    shot_frames := shotFrameCount frames
    subtitle_frames := subtitleFrameCount frames
    extraction_type := "shots_and_subtitles"
    frames := frames }

/-- A kind whose `type` string contains `'shot'`. -/
def TsKind.hasShot : TsKind → Bool
  | .shot => true
  | .subtitle => false
  | .shotAndSubtitle => true

/-- A kind whose `type` string contains `'subtitle'`. -/
def TsKind.hasSubtitle : TsKind → Bool
  | .shot => false
  | .subtitle => true
  | .shotAndSubtitle => true

theorem extractFramesFrom_number_gt (outName : String) (thumbOk : ℕ → Bool) :
    ∀ (events : List TsData) (i n : ℕ),
      n ∈ (extractFramesFrom outName thumbOk events i).map Frame.number → i < n := by
  intro events
  induction events with
  | nil => simp [extractFramesFrom]
  | cons d rest ih =>
    intro i n hn
    simp only [extractFramesFrom, List.map_append, List.mem_append] at hn
    rcases hn with hn | hn
    · rcases h : thumbOk i with - | -
      · rw [h] at hn
        simp at hn
      · rw [h] at hn
        simp only [if_true, List.map_cons, List.map_nil, List.mem_singleton] at hn
        simp [hn, mkFrame]
    · exact Nat.lt_of_succ_lt (ih (i + 1) n hn)

theorem extractFramesFrom_number_pairwise (outName : String) (thumbOk : ℕ → Bool) :
    ∀ (events : List TsData) (i : ℕ),
      ((extractFramesFrom outName thumbOk events i).map Frame.number).Pairwise (· < ·) := by
  intro events
  induction events with
  | nil => simp [extractFramesFrom]
  | cons d rest ih =>
    intro i
    simp only [extractFramesFrom, List.map_append]
    rcases h : thumbOk i with - | -
    · simpa using ih (i + 1)
    · simp only [if_true, List.map_cons, List.map_nil, List.singleton_append]
      refine List.pairwise_cons.mpr ⟨?_, ih (i + 1)⟩
      intro n hn
      have := extractFramesFrom_number_gt outName thumbOk rest (i + 1) n hn
      have hnum : (mkFrame outName (i + 1) d).number = i + 1 := rfl
      rw [hnum]
      omega

theorem extractFramesFrom_timestamp_sub (outName : String) (thumbOk : ℕ → Bool) :
    ∀ (events : List TsData) (i : ℕ) (q : ℚ),
      q ∈ (extractFramesFrom outName thumbOk events i).map Frame.timestamp →
        ∃ e ∈ events, q = e.timestamp := by
  intro events
  induction events with
  | nil => simp [extractFramesFrom]
  | cons d rest ih =>
    intro i q hq
    simp only [extractFramesFrom, List.map_append, List.mem_append] at hq
    rcases hq with hq | hq
    · rcases h : thumbOk i with - | -
      · rw [h] at hq
        simp at hq
      · rw [h] at hq
        simp only [if_true, List.map_cons, List.map_nil, List.mem_singleton] at hq
        exact ⟨d, List.mem_cons_self _ _, hq⟩
    · rcases ih (i + 1) q hq with ⟨e, he, hqe⟩
      exact ⟨e, List.mem_cons_of_mem _ he, hqe⟩

theorem extractFramesFrom_timestamp_pairwise (outName : String) (thumbOk : ℕ → Bool) :
    ∀ (events : List TsData) (i : ℕ),
      (events.Pairwise fun a b => a.timestamp < b.timestamp) →
      ((extractFramesFrom outName thumbOk events i).map Frame.timestamp).Pairwise (· < ·) := by
  intro events
  induction events with
  | nil => simp [extractFramesFrom]
  | cons d rest ih =>
    intro i hs
    rcases List.pairwise_cons.mp hs with ⟨hd, hrest⟩
    simp only [extractFramesFrom, List.map_append]
    rcases h : thumbOk i with - | -
    · simpa using ih (i + 1) hrest
    · simp only [if_true, List.map_cons, List.map_nil, List.singleton_append]
      refine List.pairwise_cons.mpr ⟨?_, ih (i + 1) hrest⟩
      intro q hq
      rcases extractFramesFrom_timestamp_sub outName thumbOk rest (i + 1) q hq with ⟨e, he, rfl⟩
      exact hd e he

theorem extractFramesFrom_all_ok (outName : String) (thumbOk : ℕ → Bool) :
    ∀ (events : List TsData) (i : ℕ),
      (∀ j, i ≤ j → j < i + events.length → thumbOk j = true) →
      (extractFramesFrom outName thumbOk events i).map Frame.number
        = List.range' (i + 1) events.length := by
  intro events
  induction events with
  | nil => simp [extractFramesFrom]
  | cons d rest ih =>
    intro i hok
    have hi : thumbOk i = true := hok i le_rfl (by simp)
    simp only [extractFramesFrom, List.map_append, hi, if_true, List.map_cons,
      List.map_nil, List.singleton_append, List.length_cons]
    have hrest : (extractFramesFrom outName thumbOk rest (i + 1)).map Frame.number
        = List.range' (i + 2) rest.length := by
      refine ih (i + 1) ?_
      intro j h1 h2
      exact hok j (Nat.le_of_succ_le h1) (by simp only [List.length_cons]; omega)
    rw [hrest]
    have hnum : (mkFrame outName (i + 1) d).number = i + 1 := rfl
    rw [hnum, List.range'_succ]

/-- Concrete timeline for the frame-numbering counterexample: three events,
the second per-frame extraction fails. -/
def gapEvents : List TsData :=
  [⟨0, .shot, none⟩, ⟨1, .shot, none⟩, ⟨2, .shot, none⟩]

/-- Thumbnail-existence oracle where only the second call fails. -/
def gapThumbOk : ℕ → Bool := fun i => decide (i ≠ 1)

/-- C2 counterexample: with a failed extraction in the middle, the manifest
numbers are `[1, 3]` for two records — not the contiguous range `1..2` —
so the claim that numbering stays gapless across failed extractions is
false of the code. -/
theorem frame_numbering_gap_counterexample :
    (extractFrames "m" gapEvents gapThumbOk).map Frame.number = [1, 3]
    ∧ (extractFrames "m" gapEvents gapThumbOk).length = 2
    ∧ (extractFrames "m" gapEvents gapThumbOk).map Frame.number
        ≠ List.range' 1 (extractFrames "m" gapEvents gapThumbOk).length := by
  decide

/-- C2 amended: sequence numbers are always strictly increasing, and
strictly increasing with timestamp when the input timeline is strictly
sorted; they form the contiguous range `1..N` when every per-frame
extraction succeeds.  A failed extraction skips its number, leaving a gap
(the number records the event's position in the input timeline). -/
theorem frame_numbering (outName : String) (events : List TsData) (thumbOk : ℕ → Bool)
    (hsorted : events.Pairwise fun a b => a.timestamp < b.timestamp) :
    ((extractFrames outName events thumbOk).map Frame.number).Pairwise (· < ·)
    ∧ ((extractFrames outName events thumbOk).map Frame.timestamp).Pairwise (· < ·)
    ∧ ((∀ i, i < events.length → thumbOk i = true) →
        (extractFrames outName events thumbOk).map Frame.number
          = List.range' 1 events.length) := by
  refine ⟨extractFramesFrom_number_pairwise outName thumbOk events 0,
    extractFramesFrom_timestamp_pairwise outName thumbOk events 0 hsorted, ?_⟩
  intro hok
  exact extractFramesFrom_all_ok outName thumbOk events 0 fun j _ h2 => hok j (by omega)

/-- Closed instance of the amended C2 theorem on a two-event timeline with
all extractions succeeding. -/
theorem frame_numbering_witness :
    ([(⟨0, .shot, none⟩ : TsData), ⟨1, .shot, none⟩].Pairwise
        fun a b => a.timestamp < b.timestamp)
    ∧ (((extractFrames "m" [⟨0, .shot, none⟩, ⟨1, .shot, none⟩] fun _ => true).map
          Frame.number).Pairwise (· < ·)
      ∧ (((extractFrames "m" [⟨0, .shot, none⟩, ⟨1, .shot, none⟩] fun _ => true).map
          Frame.timestamp).Pairwise (· < ·))
      ∧ ((∀ i, i < ([(⟨0, .shot, none⟩ : TsData), ⟨1, .shot, none⟩]).length →
            (fun _ : ℕ => true) i = true) →
          (extractFrames "m" [⟨0, .shot, none⟩, ⟨1, .shot, none⟩] fun _ => true).map
            Frame.number = List.range' 1 ([(⟨0, .shot, none⟩ : TsData), ⟨1, .shot, none⟩]).length)) :=
  ⟨by decide,
    frame_numbering "m" [⟨0, .shot, none⟩, ⟨1, .shot, none⟩] (fun _ => true) (by decide)⟩

theorem hasSegment_shot_eq (k : TsKind) :
    hasSegment "shot".data (TsKind.str k).data = k.hasShot := by
  cases k <;> decide

theorem hasSegment_subtitle_eq (k : TsKind) :
    hasSegment "subtitle".data (TsKind.str k).data = k.hasSubtitle := by
  cases k <;> decide

/-- C8: in every manifest, `total_frames` is the number of records,
`shot_frames` counts the records whose kind contains Shot and
`subtitle_frames` those whose kind contains Subtitle; a `shot+subtitle`
record is counted in both. -/
theorem manifest_counts (movieName : String) (frames : List Frame) :
    (mkManifest movieName frames).total_frames = frames.length
    ∧ (mkManifest movieName frames).shot_frames
        = frames.countP (fun f => f.type.hasShot)
    ∧ (mkManifest movieName frames).subtitle_frames
        = frames.countP (fun f => f.type.hasSubtitle)
    ∧ TsKind.hasShot .shotAndSubtitle = true
    ∧ TsKind.hasSubtitle .shotAndSubtitle = true := by
  refine ⟨rfl, ?_, ?_, rfl, rfl⟩
  · show shotFrameCount frames = _
    unfold shotFrameCount
    refine List.countP_congr ?_
    intro f _
    rw [hasSegment_shot_eq]
  · show subtitleFrameCount frames = _
    unfold subtitleFrameCount
    refine List.countP_congr ?_
    intro f _
    rw [hasSegment_subtitle_eq]

/-- Value invariant of the timestamp dictionary: a shot entry carries no
text; a subtitle or shot+subtitle entry carries the text of one of the
subtitle events. -/
def GoodData (subs : List (ℚ × String)) (d : TsData) : Prop :=
  (d.type = .shot ∧ d.subtitle = none)
  ∨ ((d.type = .subtitle ∨ d.type = .shotAndSubtitle) ∧ ∃ p ∈ subs, d.subtitle = some p.2)

theorem goodData_foldl_addShot (subs : List (ℚ × String)) (shots : List ℚ) :
    ∀ m : TimelineMap, (∀ p ∈ m, GoodData subs p.2) →
      ∀ p ∈ shots.foldl addShot m, GoodData subs p.2 := by
  induction shots with
  | nil => exact fun m h => h
  | cons s rest ih =>
    intro m h
    refine ih _ ?_
    intro p hp
    rcases mem_dinsert m s _ p hp with hp | rfl
    · exact h p hp
    · exact Or.inl ⟨rfl, rfl⟩

theorem goodData_foldSubs (subs : List (ℚ × String)) :
    ∀ subs' : List (ℚ × String), (∀ q ∈ subs', q ∈ subs) →
      ∀ m : TimelineMap, (∀ p ∈ m, GoodData subs p.2) →
        ∀ p ∈ foldSubs m subs', GoodData subs p.2 := by
  intro subs'
  induction subs' with
  | nil => exact fun _ m h => h
  | cons q rest ih =>
    intro hss m h
    have hq : q ∈ subs := hss q (List.mem_cons_self _ _)
    refine ih (fun r hr => hss r (List.mem_cons_of_mem _ hr)) _ ?_
    intro p hp
    rcases mem_addSubtitleEvent m q.1 q.2 p hp with hp | ⟨r, hr, rfl⟩ | rfl
    · exact h p hp
    · exact Or.inr ⟨Or.inr rfl, q, hq, rfl⟩
    · exact Or.inr ⟨Or.inl rfl, q, hq, rfl⟩

theorem goodData_build (shots : List ℚ) (subs : List (ℚ × String)) :
    ∀ p ∈ buildTimestampMap shots subs, GoodData subs p.2 :=
  goodData_foldSubs subs subs (fun _ h => h) _
    (goodData_foldl_addShot subs shots [] (by simp))

theorem mem_extractFramesFrom (outName : String) (thumbOk : ℕ → Bool) :
    ∀ (events : List TsData) (i : ℕ) (f : Frame),
      f ∈ extractFramesFrom outName thumbOk events i →
        ∃ e ∈ events, ∃ n, f = mkFrame outName n e := by
  intro events
  induction events with
  | nil => simp [extractFramesFrom]
  | cons d rest ih =>
    intro i f hf
    simp only [extractFramesFrom, List.mem_append] at hf
    rcases hf with hf | hf
    · rcases h : thumbOk i with - | -
      · rw [h] at hf
        simp at hf
      · rw [h] at hf
        simp only [if_true, List.mem_singleton] at hf
        exact ⟨d, List.mem_cons_self _ _, i + 1, hf⟩
    · rcases ih (i + 1) f hf with ⟨e, he, n, hn⟩
      exact ⟨e, List.mem_cons_of_mem _ he, n, hn⟩

/-- C9: in every frame record produced by a run, the optional subtitle
field is present exactly when the record's kind is subtitle or
shot+subtitle, and when present its text is non-empty (given that every
subtitle event carries non-empty text, which both subtitle sources
guarantee). -/
theorem subtitle_field_iff (outName : String) (shots : List ℚ) (subs : List (ℚ × String))
    (thumbOk : ℕ → Bool) (hne : ∀ p ∈ subs, p.2 ≠ "") :
    ∀ f ∈ extractFrames outName (mergeTimelines shots subs) thumbOk,
      ((f.subtitle ≠ none) ↔ (f.type = .subtitle ∨ f.type = .shotAndSubtitle))
      ∧ ∀ s, f.subtitle = some s → s ≠ "" := by
  intro f hf
  rcases mem_extractFramesFrom outName thumbOk _ 0 f hf with ⟨e, he, n, rfl⟩
  rcases List.mem_map.mp ((mem_mergeTimelines shots subs e).mp he) with ⟨p, hp, rfl⟩
  rcases goodData_build shots subs p hp with ⟨htype, hsub⟩ | ⟨htype, q, hq, hsub⟩
  · have hfs : (mkFrame outName n p.2).subtitle = none := by
      simp [mkFrame, hsub]
    have hft : (mkFrame outName n p.2).type = .shot := htype
    constructor
    · rw [hfs, hft]
      simp
    · intro s hs
      rw [hfs] at hs
      exact absurd hs (by simp)
  · have hqe : q.2 ≠ "" := hne q hq
    have hfs : (mkFrame outName n p.2).subtitle = some q.2 := by
      simp [mkFrame, hsub, hqe]
    have hft : (mkFrame outName n p.2).type = p.2.type := rfl
    constructor
    · rw [hfs, hft]
      simp only [ne_eq, reduceCtorEq, not_false_iff, true_iff]
      exact htype
    · intro s hs
      rw [hfs] at hs
      injection hs with hs
      rw [← hs]
      exact hqe

/-- Closed instance of the C9 theorem: one shot at 0, one subtitle at 1
with text "hi", every extraction succeeding. -/
theorem subtitle_field_iff_witness :
    (∀ p ∈ [((1 : ℚ), "hi")], p.2 ≠ "")
    ∧ ∀ f ∈ extractFrames "m" (mergeTimelines [0] [(1, "hi")]) (fun _ => true),
        ((f.subtitle ≠ none) ↔ (f.type = .subtitle ∨ f.type = .shotAndSubtitle))
        ∧ ∀ s, f.subtitle = some s → s ≠ "" :=
  ⟨by decide, subtitle_field_iff "m" [0] [(1, "hi")] (fun _ => true) (by decide)⟩

/-- State of the manifest file on disk as observed by the frames endpoint:
absent, present but not valid JSON, or present and parsing to a document. -/
inductive ManifestFile where
  | missing
  | unparsable
  | parses (m : Manifest)

/-- Response value of the frames endpoint: the parsed document, or the
literal default `{frames: [], movie_name: null, total_frames: 0}`. -/
inductive FramesResponse where
  | doc (m : Manifest)
  | empty

/-- `get_frames`: if the manifest path exists, parse it with `json.load`
and return the document; otherwise return the default shape.  A parse
failure raises out of the handler (`json.load` is not guarded), modelled
as `Except.error`. -/
def getFrames : ManifestFile → Except Unit FramesResponse
  | .parses m => .ok (.doc m)
  | .unparsable => .error ()
  | .missing => .ok .empty

/-- C7 counterexample: an existing but unparsable manifest makes the
endpoint raise instead of returning the "no frames" default, so the claim
that a missing or unparsable manifest is never fatal is false of the code. -/
theorem frames_endpoint_unparsable_counterexample :
    getFrames .unparsable = .error ()
    ∧ getFrames .unparsable ≠ .ok .empty :=
  ⟨rfl, fun h => Except.noConfusion h⟩

/-- C7 amended: the endpoint returns the parsed document verbatim when the
manifest file exists and parses, returns the default
`{frames: [], movie_name: null, total_frames: 0}` when the file is missing,
and raises (propagating the parse error) when the file exists but does not
parse. -/
theorem frames_endpoint_contract :
    getFrames .missing = .ok .empty
    ∧ (∀ m : Manifest, getFrames (.parses m) = .ok (.doc m))
    ∧ getFrames .unparsable = .error () :=
  ⟨rfl, fun _ => rfl, rfl⟩

/-- Worker for `re.split('\n\n+', ...)`: accumulate the current block
(reversed) until a run of at least two newlines, which separates blocks and
is consumed greedily.  The fuel argument (instantiated with the input
length, which every step consumes at least as fast) only makes the
recursion structural; the zero-fuel fallback is unreachable. -/
def splitBlocksGo : ℕ → List Char → List Char → List (List Char)
  | _, cur, [] => [cur.reverse]
  | 0, cur, _ => [cur.reverse]
  | fuel + 1, cur, '\n' :: '\n' :: rest =>
    cur.reverse :: splitBlocksGo fuel [] (rest.dropWhile fun c => c = '\n')
  | fuel + 1, cur, c :: rest => splitBlocksGo fuel (c :: cur) rest

/-- `re.split(r'\n\n+', content)` on already-stripped content. -/
def splitBlocks (cs : List Char) : List (List Char) :=
  splitBlocksGo cs.length [] cs

/-- The lines of one block: `block.strip().split('\n')`. -/
def blockLines (b : List Char) : List (List Char) :=
  splitLines (trimChars b)

/-- Numeric value of one digit character. -/
def digitVal (c : Char) : ℕ := c.toNat - '0'.toNat

/-- Whether the remainder of the timecode line starts with the literal
arrow `-->`. -/
def arrowFollows : List Char → Bool
  | '-' :: '-' :: '>' :: _ => true
  | _ => false

/-- `hours*3600 + minutes*60 + seconds + ms/1000` as an exact rational. -/
def srtTime (h m s ms : ℕ) : ℚ :=
  mkRat ((h * 3600 + m * 60 + s) * 1000 + ms) 1000

theorem srtTime_eq (h m s ms : ℕ) :
    srtTime h m s ms = (h : ℚ) * 3600 + (m : ℚ) * 60 + (s : ℚ) + (ms : ℚ) / 1000 := by
  unfold srtTime
  rw [Rat.mkRat_eq_div]
  push_cast
  ring

/-- `re.match(r'(\d{2}):(\d{2}):(\d{2})[,.](\d{3})\s*-->', line)`: the
block's start time in seconds, when the time-range line is well formed. -/
def parseTimecodeLine (cs : List Char) : Option ℚ :=
  match cs with
  | h1 :: h2 :: ':' :: m1 :: m2 :: ':' :: s1 :: s2 :: sep :: x1 :: x2 :: x3 :: rest =>
    if h1.isDigit && h2.isDigit && m1.isDigit && m2.isDigit && s1.isDigit && s2.isDigit
        && (sep = ',' || sep = '.') && x1.isDigit && x2.isDigit && x3.isDigit
        && arrowFollows (rest.dropWhile Char.isWhitespace) then
      some (srtTime (10 * digitVal h1 + digitVal h2) (10 * digitVal m1 + digitVal m2)
        (10 * digitVal s1 + digitVal s2)
        (100 * digitVal x1 + 10 * digitVal x2 + digitVal x3))
    else none
  | _ => none

/-- `' '.join(lines)` on character lists. -/
def joinWithSpace : List (List Char) → List Char
  | [] => []
  | [l] => l
  | l :: ls => l ++ ' ' :: joinWithSpace ls

/-- Worker for `re.sub(r'<[^>]+>', '', text)`: remove every `<...>` tag
(left to right; a tag needs at least one character between the brackets).
The fuel argument (instantiated with the input length) only makes the
recursion structural; the zero-fuel fallback is unreachable. -/
def stripTagsGo : ℕ → List Char → List Char
  | _, [] => []
  | 0, l => l
  | fuel + 1, '<' :: rest =>
    if (rest.takeWhile fun c => c ≠ '>') ≠ [] ∧ (rest.dropWhile fun c => c ≠ '>') ≠ [] then
      stripTagsGo fuel (rest.dropWhile fun c => c ≠ '>').tail
    else
      '<' :: stripTagsGo fuel rest
  | fuel + 1, c :: rest => c :: stripTagsGo fuel rest

/-- `re.sub(r'<[^>]+>', '', text)`. -/
def stripTags (cs : List Char) : List Char :=
  stripTagsGo cs.length cs

/-- The body of the block loop of `parse_srt`, before deduplication: skip
blocks with fewer than three lines or an unparsable time line, otherwise
return the start time and the tag-stripped joined text. -/
def parseBlock (b : List Char) : Option (ℚ × String) :=
  match blockLines b with
  | _ :: timeLine :: t1 :: trest =>
    match parseTimecodeLine timeLine with
    | none => none
    | some time =>
      some (time, String.mk (stripTags (trimChars (joinWithSpace (t1 :: trest)))))
  | _ => none

/-- The block loop of `parse_srt` with its `seen_texts` accumulator: a
parsed block is emitted only when its text is non-empty and not yet seen. -/
def collectSubtitles : List (List Char) → List String → List (ℚ × String)
  | [], _ => []
  | b :: bs, seen =>
    match parseBlock b with
    | none => collectSubtitles bs seen
    | some (time, text) =>
      if text ≠ "" ∧ text ∉ seen then (time, text) :: collectSubtitles bs (text :: seen)
      else collectSubtitles bs seen

/-- `parse_srt`: strip the content, split into blocks, parse and
deduplicate by exact text across the whole file. -/
def parseSrt (content : String) : List (ℚ × String) :=
  collectSubtitles (splitBlocks (trimChars content.data)) []

/-- The parsed blocks of the file in order, before the dedup gate. -/
def rawSubtitleEntries (content : String) : List (ℚ × String) :=
  (splitBlocks (trimChars content.data)).filterMap parseBlock

theorem collectSubtitles_cons_none (b : List Char) (bs : List (List Char))
    (seen : List String) (hb : parseBlock b = none) :
    collectSubtitles (b :: bs) seen = collectSubtitles bs seen := by
  simp only [collectSubtitles]
  rw [hb]

theorem collectSubtitles_cons_some (b : List Char) (bs : List (List Char))
    (seen : List String) (time : ℚ) (text : String)
    (hb : parseBlock b = some (time, text)) :
    collectSubtitles (b :: bs) seen =
      if text ≠ "" ∧ text ∉ seen then (time, text) :: collectSubtitles bs (text :: seen)
      else collectSubtitles bs seen := by
  simp only [collectSubtitles]
  rw [hb]

theorem collectSubtitles_filter_seen (x : String) :
    ∀ (bs : List (List Char)) (seen : List String), x ∈ seen →
      (collectSubtitles bs seen).filter (fun p => decide (p.2 = x)) = [] := by
  intro bs
  induction bs with
  | nil => simp [collectSubtitles]
  | cons b rest ih =>
    intro seen hseen
    rcases hb : parseBlock b with - | ⟨time, text⟩
    · rw [collectSubtitles_cons_none b rest seen hb]
      exact ih seen hseen
    · rw [collectSubtitles_cons_some b rest seen time text hb]
      by_cases hc : text ≠ "" ∧ text ∉ seen
      · rw [if_pos hc]
        have hxt : ¬text = x := fun he => hc.2 (he ▸ hseen)
        rw [List.filter_cons_of_neg (by simpa using hxt)]
        exact ih _ (List.mem_cons_of_mem _ hseen)
      · rw [if_neg hc]
        exact ih seen hseen

theorem collectSubtitles_filter_take (x : String) (hx : x ≠ "") :
    ∀ (bs : List (List Char)) (seen : List String), x ∉ seen →
      (collectSubtitles bs seen).filter (fun p => decide (p.2 = x))
        = ((bs.filterMap parseBlock).filter (fun p => decide (p.2 = x))).take 1 := by
  intro bs
  induction bs with
  | nil => simp [collectSubtitles]
  | cons b rest ih =>
    intro seen hseen
    rcases hb : parseBlock b with - | ⟨time, text⟩
    · rw [collectSubtitles_cons_none b rest seen hb, List.filterMap_cons_none hb]
      exact ih seen hseen
    · rw [collectSubtitles_cons_some b rest seen time text hb, List.filterMap_cons_some hb]
      by_cases hxt : text = x
      · subst hxt
        rw [if_pos ⟨hx, hseen⟩, List.filter_cons_of_pos (by simp),
          List.filter_cons_of_pos (by simp)]
        simp only [List.take_succ_cons, List.take_zero]
        rw [collectSubtitles_filter_seen text rest _ (List.mem_cons_self _ _)]
      · by_cases hc : text ≠ "" ∧ text ∉ seen
        · rw [if_pos hc, List.filter_cons_of_neg (by simpa using hxt),
            List.filter_cons_of_neg (by simpa using hxt)]
          exact ih _ fun hm => by
            rcases List.mem_cons.mp hm with he | he
            · exact hxt he.symm
            · exact hseen he
        · rw [if_neg hc, List.filter_cons_of_neg (by simpa using hxt)]
          exact ih seen hseen

/-- C5: when the same non-empty text appears in exactly two blocks of the
file at two start times, the parser emits exactly one event for that text,
at the earlier (first-occurring) timestamp; the later occurrence is
dropped. -/
theorem srt_dedup_keeps_first (content : String) (t₁ t₂ : ℚ) (x : String)
    (hx : x ≠ "") (_hlt : t₁ < t₂)
    (hf : (rawSubtitleEntries content).filter (fun p => decide (p.2 = x))
        = [(t₁, x), (t₂, x)]) :
    (parseSrt content).filter (fun p => decide (p.2 = x)) = [(t₁, x)] := by
  have h := collectSubtitles_filter_take x hx
    (splitBlocks (trimChars content.data)) [] (by simp)
  unfold parseSrt
  rw [h]
  unfold rawSubtitleEntries at hf
  rw [hf]
  rfl

/-- A two-block subtitle file in which the same line appears at 1s and at
5s. -/
def srtScenarioContent : String :=
  "1\n00:00:01,000 --> 00:00:03,000\nHello world\n\n2\n00:00:05,000 --> 00:00:06,000\nHello world"

/-- Closed instance of the C5 theorem on the two-block file of the spec's
scenario: the same line at 1s and at 5s. -/
theorem srt_dedup_keeps_first_witness :
    ("Hello world" ≠ "" ∧ (1 : ℚ) < 5
      ∧ (rawSubtitleEntries srtScenarioContent).filter
          (fun p => decide (p.2 = "Hello world")) = [(1, "Hello world"), (5, "Hello world")])
    ∧ (parseSrt srtScenarioContent).filter (fun p => decide (p.2 = "Hello world"))
        = [(1, "Hello world")] :=
  ⟨⟨by decide, by decide, by decide⟩,
    srt_dedup_keeps_first srtScenarioContent 1 5 "Hello world" (by decide) (by decide) (by decide)⟩

/-- The sampling loop of `scan_for_subtitle_changes`, abstracted over the
sampled sequence: each sample carries its time and the cleaned OCR text
(`none` when the per-sample frame extraction failed, in which case the
sample is skipped without updating the last-seen text).  An event is
recorded only when the text differs from the previous sample's text and is
non-empty; `last_subtitle` is updated on every difference. -/
def scanChanges : List (ℚ × Option String) → String → List (ℚ × String)
  | [], _ => []
  | (_, none) :: rest, last => scanChanges rest last
  | (t, some txt) :: rest, last =>
    if txt ≠ last then
      (if txt ≠ "" then [(t, txt)] else []) ++ scanChanges rest txt
    else scanChanges rest last

/-- `scan_for_subtitle_changes` over its sample stream (`last_subtitle`
starts as the empty string). -/
def scanForSubtitleChanges (samples : List (ℚ × Option String)) : List (ℚ × String) :=
  scanChanges samples ""

/-- C6: the OCR sampler is edge-triggered.  Two consecutive samples with
identical text contribute at most one event (none at the second sample's
time), whatever came before; and the spec's scenario — samples "A","A",
"B","B" at 0, 0.5, 1, 1.5 seconds — yields exactly the events (0,"A") and
(1,"B"). -/
theorem ocr_edge_trigger :
    (∀ (last : String) (t₁ t₂ : ℚ) (x : String) (rest : List (ℚ × Option String)),
      scanChanges ((t₁, some x) :: (t₂, some x) :: rest) last =
        (if x ≠ last ∧ x ≠ "" then [(t₁, x)] else []) ++ scanChanges rest x)
    ∧ scanForSubtitleChanges
        [(0, some "A"), (mkRat 1 2, some "A"), (1, some "B"), (mkRat 3 2, some "B")]
      = [(0, "A"), (1, "B")] := by
  constructor
  · intro last t₁ t₂ x rest
    by_cases hxl : x = last
    · subst hxl
      simp [scanChanges]
    · simp only [scanChanges, if_pos (show x ≠ last from hxl), if_neg (show ¬x ≠ x from by simp)]
      by_cases hxe : x = ""
      · simp [hxe, hxl]
      · simp [hxe, hxl]
  · decide

end Frames
